import Mathlib

/-!
Shallow embedding of the tiny-regex engine (the `tre_*` revision of the
repository: `tre_compile`, `tre_match`, `matchpattern`, `matchquant`,
`matchquant_lazy`, `matchone`, `matchcharclass` and the character
predicates), together with theorems checking the specification's claims.

Modelling conventions:
* Bytes of the pattern and the text are natural numbers; a C string is the
  list of its bytes before the NUL terminator, so `[]` plays the role of
  the terminator position and character codes appear as numerals
  (`94 = '^'`, `36 = '$'`, `42 = '*'`, `91 = '['`, ...).
* The instruction array is a `List TreNode`; the `TRE_NONE` sentinel that
  ends the live instructions corresponds to the end of the list.
* `matchpattern` returns the remaining suffix of the text instead of the C
  end pointer; the end offset is recovered as `length text - length rest`.
* A node's `ccl` pointer into the class buffer is modelled by storing the
  NUL-terminated class contents directly in the `CLASS`/`NCLASS` node, and
  the `mn` quantifier bounds are stored in the `QUANT`/`LQUANT` node; the
  compiler still tracks the buffer write index `bufidx` exactly as the C
  code does, so all the capacity checks are preserved.
* `tre_comp` values are zero-initialized at their creation site
  (`tre_comp tregex = {0}` in `tre_compile_match`), so the `ch` field read
  by `matchone` on a node whose union was never written is 0; for
  `QUANT`/`LQUANT` nodes it aliases the low byte of `mn[0]`.
-/

namespace TinyRegex

/-- Character predicate `TRE_MATCHDIGIT`: decimal digits `'0'..'9'`. -/
def matchdigit (c : Nat) : Bool := decide (48 ≤ c ∧ c ≤ 57)

/-- Character predicate `TRE_MATCHALPHA`: ASCII letters. -/
def matchalpha (c : Nat) : Bool := decide ((97 ≤ c ∧ c ≤ 122) ∨ (65 ≤ c ∧ c ≤ 90))

/-- Character predicate `TRE_MATCHSPACE`: space, `\t \n \r \f \v`. -/
def matchspace (c : Nat) : Bool :=
  decide (c = 32 ∨ c = 9 ∨ c = 10 ∨ c = 13 ∨ c = 12 ∨ c = 11)

/-- Character predicate `TRE_MATCHALNUM`: underscore, letters or digits. -/
def matchalnum (c : Nat) : Bool := decide (c = 95) || matchalpha c || matchdigit c

/-- Character predicate `TRE_MATCHDOT` with the default configuration
(`TRE_DOTANY` not defined): anything but `\n` (10) and `\r` (13). -/
def matchdot (c : Nat) : Bool := decide (c ≠ 10 ∧ c ≠ 13)

/-- The function `matchmetachar`: dispatch an escape letter
(`d D w W s S`, codes 100 68 119 87 115 83) to its predicate, any other
byte to literal equality. -/
def matchmetachar (c mc : Nat) : Bool :=
  if mc == 100 then matchdigit c
  else if mc == 68 then !matchdigit c
  else if mc == 119 then matchalnum c
  else if mc == 87 then !matchalnum c
  else if mc == 115 then matchspace c
  else if mc == 83 then !matchspace c
  else c == mc

/-- Instruction kinds of `tre_node` (the `TRE_NONE` sentinel is the end of
the instruction list).  `CHAR` carries the `ch` byte, `CLASS`/`NCLASS`
carry the NUL-terminated class buffer contents their `ccl` points to, and
`QUANT`/`LQUANT` carry the `mn[0], mn[1]` bounds. -/
inductive TreNode where
  | BEGIN
  | END
  | QUANT (mn0 mn1 : Nat)
  | LQUANT (mn0 mn1 : Nat)
  | QMARK
  | LQMARK
  | STAR
  | LSTAR
  | PLUS
  | LPLUS
  | DOT
  | CHAR (ch : Nat)
  | CLASS (ccl : List Nat)
  | NCLASS (ccl : List Nat)
  | DIGIT
  | NDIGIT
  | ALPHA
  | NALPHA
  | SPACE
  | NSPACE
deriving DecidableEq

/-- The function `matchcharclass`: walk the class buffer contents (`str`,
here the list of bytes before the terminating NUL).  An entry is either a
backslash (92) followed by a byte fed to `matchmetachar`, a three byte
range `lo '-' hi` (the `'-'` is 45; the C code checks `str[2] != '\0'`,
i.e. that a third byte exists), or a single literal byte.  In the
`[s0]`-with-backslash case the C code reads the terminator as the escaped
byte (`matchmetachar c 0`); the compiler never emits such a buffer. -/
def matchcharclass (c : Nat) : List Nat → Bool
  | s0 :: s1 :: s2 :: rest =>
    if s0 == 92 then
      matchmetachar c s1 || matchcharclass c (s2 :: rest)
    else if s1 == 45 then
      decide (s0 ≤ c ∧ c ≤ s2) || matchcharclass c rest
    else
      c == s0 || matchcharclass c (s1 :: s2 :: rest)
  | [s0, s1] =>
    if s0 == 92 then matchmetachar c s1
    else c == s0 || matchcharclass c [s1]
  | [s0] =>
    if s0 == 92 then matchmetachar c 0
    else c == s0
  | [] => false

/-- The `ch` byte `matchone`'s default case reads from a node: the byte of
a `CHAR` node, the low byte of `mn[0]` for `QUANT`/`LQUANT` (the union
aliases them), and 0 for every node whose union was never written
(zero-initialized `tre_comp`). -/
def nodeCh : TreNode → Nat
  | TreNode.CHAR c => c
  | TreNode.QUANT m _ => m % 256
  | TreNode.LQUANT m _ => m % 256
  | _ => 0

/-- The function `matchone`: test a single atom against a single byte. -/
def matchone (t : TreNode) (c : Nat) : Bool :=
  match t with
  | TreNode.DOT => matchdot c
  | TreNode.CLASS ccl => matchcharclass c ccl
  | TreNode.NCLASS ccl => !matchcharclass c ccl
  | TreNode.DIGIT => matchdigit c
  | TreNode.NDIGIT => !matchdigit c
  | TreNode.ALPHA => matchalnum c
  | TreNode.NALPHA => !matchalnum c
  | TreNode.SPACE => matchspace c
  | TreNode.NSPACE => !matchspace c
  | t => nodeCh t == c

/-- Quantifier dispatch of `matchpattern`'s `switch (tnode[1].type)`:
for each quantifier kind, whether it is lazy and the `(min, max)` pair
passed to `matchquant`/`matchquant_lazy` (`TRE_MAXPLUS = 40000` for
`*` and `+`). -/
def quantBounds : TreNode → Option (Bool × Nat × Nat)
  | TreNode.QMARK => some (false, 0, 1)
  | TreNode.LQMARK => some (true, 0, 1)
  | TreNode.QUANT m n => some (false, m, n)
  | TreNode.LQUANT m n => some (true, m, n)
  | TreNode.STAR => some (false, 0, 40000)
  | TreNode.LSTAR => some (true, 0, 40000)
  | TreNode.PLUS => some (false, 1, 40000)
  | TreNode.LPLUS => some (true, 1, 40000)
  | _ => none

/-- Whether a node is one of the eight quantifier kinds. -/
def isQuantNode (t : TreNode) : Bool := (quantBounds t).isSome

/-- Whether a node is an atom (consumes one byte; exactly the node kinds
after which the compiler sets `ischar = 1`). -/
def isAtomNode : TreNode → Bool
  | TreNode.DOT => true
  | TreNode.CHAR _ => true
  | TreNode.CLASS _ => true
  | TreNode.NCLASS _ => true
  | TreNode.DIGIT => true
  | TreNode.NDIGIT => true
  | TreNode.ALPHA => true
  | TreNode.NALPHA => true
  | TreNode.SPACE => true
  | TreNode.NSPACE => true
  | _ => false

/-- The greedy consumption loop of `matchquant`:
`while (max && *text && matchone(tnode, *text)) { text++; max--; }`.
Returns how many leading bytes of `text` match the atom, capped at `mx`. -/
def maxConsume (t : TreNode) : List Nat → Nat → Nat
  | _, 0 => 0
  | [], _ + 1 => 0
  | c :: text, mx + 1 => if matchone t c then maxConsume t text mx + 1 else 0

/-- The mandatory consumption loop of `matchquant_lazy`:
`while (min && *text && matchone(tnode, *text)) { text++; min--; }
if (min) { return 0; }`.  Consume the atom exactly `n` times or fail. -/
def consumeExact (t : TreNode) : List Nat → Nat → Option (List Nat)
  | text, 0 => some text
  | [], _ + 1 => none
  | c :: text, n + 1 => if matchone t c then consumeExact t text n else none

/-- The backtracking loop of `matchquant`:
`while (text - start >= min) { end = matchpattern(tnode + 2, text--); ... }`.
Try the remainder `f` after `k` repetitions, then `k - 1`, ... down to
`mn` repetitions, returning the first success. -/
def greedyTry (f : List Nat → Option (List Nat)) (text : List Nat) (mn : Nat) :
    Nat → Option (List Nat)
  | 0 => if mn = 0 then f text else none
  | k + 1 =>
    if k + 1 < mn then none
    else
      match f (text.drop (k + 1)) with
      | some r => some r
      | none => greedyTry f text mn k

/-- The do-while loop of `matchquant_lazy`:
`do { end = matchpattern(tnode + 2, text); if (end) return end; max--; }
while (max && *text && matchone(tnode, *text++));`.
`fuel` is the remaining value of the adjusted `max` counter; every call
from `matchquant_lazy` has `fuel ≥ 1` since there `fuel = max - min + 1`
with `min ≤ max`. -/
def lazyTry (f : List Nat → Option (List Nat)) (t : TreNode) :
    List Nat → Nat → Option (List Nat)
  | _, 0 => none
  | text, fuel + 1 =>
    match f text with
    | some r => some r
    | none =>
      if fuel == 0 then none
      else
        match text with
        | [] => none
        | c :: text2 => if matchone t c then lazyTry f t text2 fuel else none

/-- The function `matchquant` (greedy): consume the atom `t` as often as
possible up to `mx`, then try the remainder `f` from the longest count
down to `mn`.  `f` stands for `matchpattern(tnode + 2, ·)`. -/
def matchquant (f : List Nat → Option (List Nat)) (t : TreNode) (text : List Nat)
    (mn mx : Nat) : Option (List Nat) :=
  greedyTry f text mn (maxConsume t text mx)

/-- The function `matchquant_lazy`: consume the atom exactly `mn` times
(fail otherwise), then run the do-while loop with the adjusted counter
`max = max - min + 1`.  `f` stands for `matchpattern(tnode + 2, ·)`. -/
def matchquant_lazy (f : List Nat → Option (List Nat)) (t : TreNode) (text : List Nat)
    (mn mx : Nat) : Option (List Nat) :=
  match consumeExact t text mn with
  | none => none
  | some text1 => lazyTry f t text1 (mx - mn + 1)

/-- The function `matchpattern`: interpret the instruction list against the
remaining text, returning the remaining suffix after the match.  The three
arms are the C code's three cases: sentinel reached (empty list), end
anchor immediately before the sentinel, and otherwise dispatch on whether
the following instruction is a quantifier, else consume one atom and
continue the loop. -/
def matchpattern : List TreNode → List Nat → Option (List Nat)
  | [], text => some text
  | [t0], text =>
    match t0 with
    | TreNode.END => if text.isEmpty then some text else none
    | _ =>
      match text with
      | [] => none
      | c :: text2 => if matchone t0 c then matchpattern [] text2 else none
  | t0 :: t1 :: rest, text =>
    match quantBounds t1 with
    | some (lz, mn, mx) =>
      if lz then matchquant_lazy (fun s => matchpattern rest s) t0 text mn mx
      else matchquant (fun s => matchpattern rest s) t0 text mn mx
    | none =>
      match text with
      | [] => none
      | c :: text2 => if matchone t0 c then matchpattern (t1 :: rest) text2 else none

/-- The scan loop of `tre_match`:
`do { mend = matchpattern(nodes, text); ... } while (*text++);`.
`s` is the offset of `text` inside the original text; on success the pair
`(start, end)` of offsets is returned. -/
def scanLoop (P : List TreNode) : List Nat → Nat → Option (Nat × Nat)
  | text, s =>
    match matchpattern P text with
    | some r => some (s, s + (text.length - r.length))
    | none =>
      match text with
      | [] => none
      | _ :: text2 => scanLoop P text2 (s + 1)

/-- The function `tre_match` (with non-NULL arguments; see `tre_matchC`
for the NULL checks): if the first instruction is the begin anchor, match
the rest of the program at offset 0 only; otherwise scan successive start
offsets.  The returned pair is the `(start, end)` offsets encoded by the C
return pointer and `*end`. -/
def tre_match (P : List TreNode) (text : List Nat) : Option (Nat × Nat) :=
  match P with
  | TreNode.BEGIN :: P1 =>
    match matchpattern P1 text with
    | some r => some (0, text.length - r.length)
    | none => none
  | _ => scanLoop P text 0

/-- The instruction list `tre_match` actually hands to `matchpattern`:
the compiled program minus a leading begin anchor. -/
def matchProg : List TreNode → List TreNode
  | TreNode.BEGIN :: rest => rest
  | P => P

/-- Whether the first instruction of a program is the begin anchor
(`nodes[0].type == TRE_BEGIN`; an empty program's first slot is the
sentinel, which is not `TRE_BEGIN`). -/
def isBeginHead : List TreNode → Bool
  | TreNode.BEGIN :: _ => true
  | _ => false

/-- The macro `TRE_ISMETA`: one of `s S w W d D`. -/
def ismeta (c : Nat) : Bool :=
  c == 115 || c == 83 || c == 119 || c == 87 || c == 100 || c == 68

/-- The macro `TRE_ISMETA_ESC`: meta letter or backslash. -/
def ismetaEsc (c : Nat) : Bool := ismeta c || c == 92

/-- The macro `TRE_ISMETA_NUL`: meta letter or NUL. -/
def ismetaNul (c : Nat) : Bool := ismeta c || c == 0

/-- The range test of the class scan: the bytes after the current one are
`'-'`, then a byte that exists (`pattern[i + 2]`, not the NUL), is not
`']'`, and is not a backslash followed by a meta letter or the NUL. -/
def isRangeAt : List Nat → Bool
  | 45 :: e :: p3 => !(e == 93) && !(e == 92 && ismetaNul (p3.headD 0))
  | _ => false

/-- The escaped-character dispatch of `tre_compile`'s `case '\\'`. -/
def escNode (c2 : Nat) : TreNode :=
  if c2 == 100 then TreNode.DIGIT
  else if c2 == 68 then TreNode.NDIGIT
  else if c2 == 119 then TreNode.ALPHA
  else if c2 == 87 then TreNode.NALPHA
  else if c2 == 115 then TreNode.SPACE
  else if c2 == 83 then TreNode.NSPACE
  else TreNode.CHAR c2

/-- The non-escaped step of the class scan (also reached for an escaped
non-meta byte after its backslash is skipped): either a three-byte range
`c '-' e` (validated `c ≤ e`, capacity check at `TRE_MAX_BUFLEN - 4`) or a
single literal byte (capacity check at `TRE_MAX_BUFLEN - 2`).  `k` is the
scan of the rest of the class (`parseClass` at the remaining pattern); in
the range branch the current byte `c` can never be a backslash (escaped
backslashes are meta-escapes), so `i += (pattern[i] == '\\') ? 3 : 2`
always adds 2. -/
def classAtom (k : List Nat → Nat → Option (List Nat × List Nat × Nat)) (c : Nat)
    (p : List Nat) (bufidx : Nat) : Option (List Nat × List Nat × Nat) :=
  if isRangeAt p then
    match p with
    | 45 :: e :: p3 =>
      if e < c then none
      else if 124 < bufidx then none
      else (k p3 (bufidx + 3)).map (fun x => (c :: 45 :: e :: x.1, x.2))
    | _ => none
  else
    if 126 < bufidx then none
    else (k p (bufidx + 1)).map (fun x => (c :: x.1, x.2))

/-- The backslash step of the class scan: a dangling backslash is an
error; an escaped meta letter or backslash is copied as a two-byte pair
(capacity check at `TRE_MAX_BUFLEN - 3`); any other escaped byte has its
backslash skipped and is then treated by the ordinary step. -/
def classEsc (k : List Nat → Nat → Option (List Nat × List Nat × Nat))
    (p : List Nat) (bufidx : Nat) : Option (List Nat × List Nat × Nat) :=
  match p with
  | [] => none
  | c2 :: p2 =>
    if ismetaEsc c2 then
      if 125 < bufidx then none
      else (k p2 (bufidx + 2)).map (fun x => (92 :: c2 :: x.1, x.2))
    else classAtom k c2 p2 bufidx

/-- The character-class scan of `tre_compile`'s `case '['` (the loop
`while (pattern[++i] != ']' && pattern[i] != '\0')`).  The list argument
starts at the first byte after `[` (and after a negating `^`); on success
it returns the class-buffer bytes written (without the terminating NUL),
the pattern rest after the closing `]`, and the new `bufidx` (which counts
the NUL, `buf[bufidx++] = 0`).  The `fuel` argument only drives the
recursion: every step consumes at least one pattern byte, so with
`fuel = pattern length` (as passed by `classCase`) the fuel-exhaustion arm
is never reached (the `[]` arm, the C loop's `pattern[i] == '\0'` exit
into the "Non terminated class" error, is matched first when the pattern
runs out). -/
def parseClass : Nat → List Nat → Nat → Option (List Nat × List Nat × Nat)
  | _, [], _ => none
  | 0, _ :: _, _ => none
  | fuel + 1, c :: p, bufidx =>
    if c == 93 then some ([], p, bufidx + 1)
    else if c == 92 then classEsc (parseClass fuel) p bufidx
    else classAtom (parseClass fuel) c p bufidx

/-- The min-value parse of `case '{'`:
`do { digit required; val = 10 * val + digit; }
while (pattern[i] != ',' && pattern[i] != '}');`.
The accumulator is an `unsigned long`, hence the reduction mod `2 ^ 64`.
Returns the value and the rest of the pattern positioned at the `,` or
`}`; reaching the NUL (empty list) fails the digit test. -/
def parseNumMin : List Nat → Nat → Option (Nat × List Nat)
  | [], _ => none
  | c :: p1, val =>
    if c < 48 ∨ 57 < c then none
    else
      let v := (10 * val + (c - 48)) % (2 ^ 64)
      match p1 with
      | [] => none
      | d :: _ => if d == 44 || d == 125 then some (v, p1) else parseNumMin p1 v

/-- The max-value parse of `case '{'`:
`while (pattern[i] != '}') { digit required; val = 10 * val + digit; }`.
Returns the value and the rest of the pattern still headed by the `}`. -/
def parseNumMax : List Nat → Nat → Option (Nat × List Nat)
  | [], _ => none
  | c :: p1, val =>
    if c == 125 then some (val, c :: p1)
    else if c < 48 ∨ 57 < c then none
    else parseNumMax p1 ((10 * val + (c - 48)) % (2 ^ 64))

/-- The `*`, `+`, `?` cases of `tre_compile`'s switch (after the `ischar`
check): look one byte ahead for a `?` selecting the lazy node kind, then
continue the loop (`k` is the rest of the main loop). -/
def quantMarkCase (k : List Nat → Nat → Nat → Bool → Option (List TreNode))
    (lazyNode greedyNode : TreNode) (p1 : List Nat) (j bufidx : Nat) :
    Option (List TreNode) :=
  match p1 with
  | 63 :: p2 => (k p2 (j + 1) bufidx false).map (lazyNode :: ·)
  | _ => (k p1 (j + 1) bufidx false).map (greedyNode :: ·)

/-- The `\\` case of `tre_compile`'s switch: a dangling backslash
(`pattern[i] == '\0'` after it) is an error, otherwise emit the node for
the escaped byte and continue the loop. -/
def escCase (k : List Nat → Nat → Nat → Bool → Option (List TreNode))
    (p1 : List Nat) (j bufidx : Nat) : Option (List TreNode) :=
  match p1 with
  | [] => none
  | c2 :: p2 => (k p2 (j + 1) bufidx true).map (escNode c2 :: ·)

/-- The `[` case of `tre_compile`'s switch: look ahead for a negating `^`,
scan the class into the buffer, emit the class node and continue the
loop. -/
def classCase (k : List Nat → Nat → Nat → Bool → Option (List TreNode))
    (p1 : List Nat) (j bufidx : Nat) : Option (List TreNode) :=
  match p1 with
  | 94 :: p2 =>
    match parseClass p2.length p2 bufidx with
    | none => none
    | some (content, rest, bufidx2) =>
      (k rest (j + 1) bufidx2 true).map (TreNode.NCLASS content :: ·)
  | _ =>
    match parseClass p1.length p1 bufidx with
    | none => none
    | some (content, rest, bufidx2) =>
      (k rest (j + 1) bufidx2 true).map (TreNode.CLASS content :: ·)

/-- The tail of the `{` case: with the bounds parsed and the pattern rest
positioned just after the `}`, look one byte ahead for a `?` selecting the
lazy node kind (`tnode[j].type = (pattern[i+1] == '?') ? (i++, TRE_LQUANT)
: TRE_QUANT`), then continue the loop. -/
def quantFinish (k : List Nat → Nat → Nat → Bool → Option (List TreNode))
    (vmin vmax : Nat) (pAfter : List Nat) (j bufidx : Nat) : Option (List TreNode) :=
  match pAfter with
  | 63 :: p5 => (k p5 (j + 1) bufidx false).map (TreNode.LQUANT vmin vmax :: ·)
  | _ => (k pAfter (j + 1) bufidx false).map (TreNode.QUANT vmin vmax :: ·)

/-- The `{` case of `tre_compile`'s switch (after the `ischar` check):
parse the min value (at most `TRE_MAXQUANT = 1024`), then either `}`
(singleton `{m}`), `,}` (max is `TRE_MAXQUANT`), or `,` and an explicit
max value (at most 1024 and at least the min).  `parseNumMin` returns
positioned at the `,` or `}` and `parseNumMax` at the `}`, so the
remaining wildcard arms are unreachable. -/
def quantCase (k : List Nat → Nat → Nat → Bool → Option (List TreNode))
    (p1 : List Nat) (j bufidx : Nat) : Option (List TreNode) :=
  match parseNumMin p1 0 with
  | none => none
  | some (vmin, p2) =>
    if 1024 < vmin then none
    else
      match p2 with
      | 44 :: p3 =>
        match p3 with
        | 125 :: p4 => quantFinish k vmin 1024 p4 j bufidx
        | _ =>
          match parseNumMax p3 0 with
          | none => none
          | some (vmax, p5) =>
            if 1024 < vmax ∨ vmax < vmin then none
            else
              match p5 with
              | 125 :: p6 => quantFinish k vmin vmax p6 j bufidx
              | _ => none
      | 125 :: p3 => quantFinish k vmin vmin p3 j bufidx
      | _ => none

/-- The main loop of `tre_compile`:
`while (pattern[i] != '\0' && (j + 1 < TRE_MAX_NODES)) { switch ... }`
with `TRE_MAX_NODES = 64`.  Returns the list of instructions emitted from
this point on (the sentinel write corresponds to the end of the list), or
`none` where the C code returns an error.  `ischar` is the "last node is
quantifiable" flag.  The `fuel` argument only drives the recursion: every
loop iteration consumes at least one pattern byte, so with
`fuel = pattern.length` (as passed by `tre_compile`) the fuel-exhaustion
arm is never reached (the `[]` arm is matched first when the pattern runs
out). -/
def compileLoop : Nat → List Nat → Nat → Nat → Bool → Option (List TreNode)
  | _, [], _, _, _ => some []
  | 0, _ :: _, _, _, _ => none
  | fuel + 1, c :: p1, j, bufidx, ischar =>
    if 64 ≤ j + 1 then some []
    else if c == 94 then (compileLoop fuel p1 (j + 1) bufidx false).map (TreNode.BEGIN :: ·)
    else if c == 36 then (compileLoop fuel p1 (j + 1) bufidx false).map (TreNode.END :: ·)
    else if c == 46 then (compileLoop fuel p1 (j + 1) bufidx true).map (TreNode.DOT :: ·)
    else if c == 42 then
      if !ischar then none
      else quantMarkCase (compileLoop fuel) TreNode.LSTAR TreNode.STAR p1 j bufidx
    else if c == 43 then
      if !ischar then none
      else quantMarkCase (compileLoop fuel) TreNode.LPLUS TreNode.PLUS p1 j bufidx
    else if c == 63 then
      if !ischar then none
      else quantMarkCase (compileLoop fuel) TreNode.LQMARK TreNode.QMARK p1 j bufidx
    else if c == 92 then escCase (compileLoop fuel) p1 j bufidx
    else if c == 91 then classCase (compileLoop fuel) p1 j bufidx
    else if c == 123 then
      if !ischar then none
      else quantCase (compileLoop fuel) p1 j bufidx
    else (compileLoop fuel p1 (j + 1) bufidx true).map (TreNode.CHAR c :: ·)

/-- The function `tre_compile` (with non-NULL arguments; see
`tre_compileC` for the NULL checks): reject the empty pattern
(`!*pattern`), otherwise run the main loop from the start of the pattern
with `j = 0`, `bufidx = 0`, `ischar = 0`. -/
def tre_compile (pattern : List Nat) : Option (List TreNode) :=
  if pattern.isEmpty then none
  else compileLoop pattern.length pattern 0 0 false

/-- The public `tre_compile` entry point with its NULL checks:
`if (!tregex || !pattern || !*pattern) return tre_err(...)`.
A missing (NULL) pattern is `none`; `tregexGiven = false` models a NULL
output structure.  The C return value 0 (failure) is `none`. -/
def tre_compileC (pattern : Option (List Nat)) (tregexGiven : Bool) :
    Option (List TreNode) :=
  match pattern, tregexGiven with
  | none, _ => none
  | _, false => none
  | some p, true => tre_compile p

/-- The public `tre_match` entry point with its NULL checks:
`if (!tregex || !text) { ...; return 0; }`. -/
def tre_matchC (tregex : Option (List TreNode)) (text : Option (List Nat)) :
    Option (Nat × Nat) :=
  match tregex, text with
  | some P, some T => tre_match P T
  | _, _ => none

/-- Quantifier-placement invariant of a compiled instruction list:
threading the "previous node is an atom" flag (the compiler's `ischar`)
through the list, every quantifier node requires the flag to be set by the
node before it. -/
def quantPlaced : Bool → List TreNode → Bool
  | _, [] => true
  | prevAtom, t :: rest => (!isQuantNode t || prevAtom) && quantPlaced (isAtomNode t) rest

/-- A plain literal pattern byte: nonzero (a C string byte) and none of
the bytes `tre_compile`'s switch treats specially
(`^ $ . * + ? \\ [ {`), so it always compiles through the default
`TRE_CHAR` case. -/
def isPlainChar (c : Nat) : Bool :=
  decide (c ≠ 0 ∧ c ≠ 94 ∧ c ≠ 36 ∧ c ≠ 46 ∧ c ≠ 42 ∧ c ≠ 43 ∧ c ≠ 63 ∧
    c ≠ 92 ∧ c ≠ 91 ∧ c ≠ 123)

/-- Every class or negated-class atom in the instruction list carries
contents that, together with their NUL terminator, fit the 128-byte
auxiliary buffer. -/
def classFit (ns : List TreNode) : Prop :=
  ∀ l, (TreNode.CLASS l ∈ ns ∨ TreNode.NCLASS l ∈ ns) → l.length + 1 ≤ 128

/-! ### Equation lemmas for the matcher -/

theorem matchpattern_nil (text : List Nat) : matchpattern [] text = some text := rfl

/-- Unfolding of `matchpattern` on a single-instruction program and empty
text: only the end anchor (or the sentinel itself) accepts there. -/
theorem matchpattern_one_nil (t0 : TreNode) :
    matchpattern [t0] [] = if t0 = TreNode.END then some [] else none := by
  cases t0 <;> rfl

/-- Unfolding of `matchpattern` on a single-instruction program and
nonempty text: the end anchor fails, any other node is tested against the
first byte and the sentinel then accepts the rest. -/
theorem matchpattern_one_cons (t0 : TreNode) (c : Nat) (text2 : List Nat) :
    matchpattern [t0] (c :: text2) =
      if t0 = TreNode.END then none
      else if matchone t0 c then some text2 else none := by
  cases t0 <;> rfl

/-- Unfolding of `matchpattern` when the second instruction is a greedy
quantifier kind. -/
theorem matchpattern_cons_greedy (t0 t1 : TreNode) (rest : List TreNode) (text : List Nat)
    (mn mx : Nat) (hq : quantBounds t1 = some (false, mn, mx)) :
    matchpattern (t0 :: t1 :: rest) text =
      matchquant (fun s => matchpattern rest s) t0 text mn mx := by
  simp [matchpattern, hq]

/-- Unfolding of `matchpattern` when the second instruction is a lazy
quantifier kind. -/
theorem matchpattern_cons_lazy (t0 t1 : TreNode) (rest : List TreNode) (text : List Nat)
    (mn mx : Nat) (hq : quantBounds t1 = some (true, mn, mx)) :
    matchpattern (t0 :: t1 :: rest) text =
      matchquant_lazy (fun s => matchpattern rest s) t0 text mn mx := by
  simp [matchpattern, hq]

/-- Unfolding of `matchpattern` on empty text when the second instruction
is not a quantifier kind. -/
theorem matchpattern_step_nil (t0 t1 : TreNode) (rest : List TreNode)
    (hq : quantBounds t1 = none) :
    matchpattern (t0 :: t1 :: rest) [] = none := by
  simp only [matchpattern, hq]

/-- Unfolding of `matchpattern` on nonempty text when the second
instruction is not a quantifier kind: consume one atom and continue. -/
theorem matchpattern_step_cons (t0 t1 : TreNode) (rest : List TreNode) (c : Nat)
    (text2 : List Nat) (hq : quantBounds t1 = none) :
    matchpattern (t0 :: t1 :: rest) (c :: text2) =
      if matchone t0 c then matchpattern (t1 :: rest) text2 else none := by
  simp only [matchpattern, hq]

theorem maxConsume_zero (t : TreNode) (text : List Nat) : maxConsume t text 0 = 0 := by
  cases text <;> rfl

theorem consumeExact_zero (t : TreNode) (text : List Nat) :
    consumeExact t text 0 = some text := by
  cases text <;> rfl

/-! ### The matcher only moves forward: results are suffixes -/

theorem maxConsume_le (t : TreNode) : ∀ (text : List Nat) (mx : Nat), maxConsume t text mx ≤ mx := by
  intro text
  induction text with
  | nil => intro mx; cases mx <;> simp [maxConsume]
  | cons c text2 ih =>
    intro mx
    cases mx with
    | zero => simp [maxConsume]
    | succ mx =>
      simp only [maxConsume]
      split
      · exact Nat.succ_le_succ (ih mx)
      · exact Nat.zero_le _

theorem consumeExact_some (t : TreNode) :
    ∀ (n : Nat) (text r : List Nat), consumeExact t text n = some r →
      maxConsume t text n = n ∧ r = text.drop n := by
  intro n
  induction n with
  | zero =>
    intro text r h
    rw [consumeExact_zero, Option.some.injEq] at h
    subst h
    exact ⟨maxConsume_zero t text, rfl⟩
  | succ n ih =>
    intro text r h
    cases text with
    | nil => simp [consumeExact] at h
    | cons c text2 =>
      simp only [consumeExact] at h
      split at h
      · obtain ⟨h1, h2⟩ := ih text2 r h
        refine ⟨?_, h2⟩
        simp only [maxConsume]
        split
        · omega
        · simp_all
      · simp at h

theorem consumeExact_of_max (t : TreNode) :
    ∀ (n : Nat) (text : List Nat), maxConsume t text n = n →
      consumeExact t text n = some (text.drop n) := by
  intro n
  induction n with
  | zero => intro text h; rw [consumeExact_zero, List.drop_zero]
  | succ n ih =>
    intro text h
    cases text with
    | nil => simp [maxConsume] at h
    | cons c text2 =>
      simp only [maxConsume] at h
      split at h
      · have hm : maxConsume t text2 n = n := by omega
        simp only [consumeExact]
        rw [if_pos (by assumption), ih text2 hm]
        rfl
      · omega

theorem greedyTry_some (f : List Nat → Option (List Nat)) (text : List Nat) (mn : Nat) :
    ∀ (k : Nat) (r : List Nat), greedyTry f text mn k = some r →
      ∃ i, i ≤ k ∧ f (text.drop i) = some r := by
  intro k
  induction k with
  | zero =>
    intro r h
    simp only [greedyTry] at h
    split at h
    · exact ⟨0, Nat.le_refl 0, h⟩
    · simp at h
  | succ k ih =>
    intro r h
    simp only [greedyTry] at h
    split at h
    · simp at h
    · rcases hf : f (text.drop (k + 1)) with _ | r2 <;> rw [hf] at h
      · obtain ⟨i, hi, hfi⟩ := ih r h
        exact ⟨i, Nat.le_succ_of_le hi, hfi⟩
      · simp only [Option.some.injEq] at h
        subst h
        exact ⟨k + 1, Nat.le_refl _, hf⟩

theorem lazyTry_zero (f : List Nat → Option (List Nat)) (t : TreNode) (text : List Nat) :
    lazyTry f t text 0 = none := by
  cases text <;> simp [lazyTry]

/-- The first thing the do-while loop of `matchquant_lazy` does is try the
remainder at the current (minimal) position: a success there is returned
as is. -/
theorem lazyTry_found (f : List Nat → Option (List Nat)) (t : TreNode) (text r : List Nat)
    (fuel : Nat) (hfuel : 0 < fuel) (hf : f text = some r) :
    lazyTry f t text fuel = some r := by
  cases fuel with
  | zero => omega
  | succ fuel => cases text <;> simp [lazyTry, hf]

theorem lazyTry_some (f : List Nat → Option (List Nat)) (t : TreNode) :
    ∀ (fuel : Nat) (text r : List Nat), lazyTry f t text fuel = some r →
      ∃ u, u <:+ text ∧ f u = some r := by
  intro fuel
  induction fuel with
  | zero => intro text r h; rw [lazyTry_zero] at h; simp at h
  | succ fuel ih =>
    intro text r h
    cases text with
    | nil =>
      simp only [lazyTry] at h
      split at h
      · rename_i r2 heq
        simp only [Option.some.injEq] at h
        subst h
        exact ⟨[], List.suffix_refl [], heq⟩
      · split at h <;> simp at h
    | cons c text2 =>
      simp only [lazyTry] at h
      split at h
      · rename_i r2 heq
        simp only [Option.some.injEq] at h
        subst h
        exact ⟨c :: text2, List.suffix_refl _, heq⟩
      · split at h
        · simp at h
        · split at h
          · obtain ⟨u, hu, hfu⟩ := ih text2 r h
            exact ⟨u, hu.trans (List.suffix_cons c text2), hfu⟩
          · simp at h

/-- Every successful `matchpattern` run returns a suffix of the text it
was given (the matcher only consumes forward). -/
theorem matchpattern_suffix_bounded :
    ∀ (n : Nat) (P : List TreNode), P.length ≤ n →
      ∀ (text r : List Nat), matchpattern P text = some r → r <:+ text := by
  intro n
  induction n with
  | zero =>
    intro P hP text r h
    cases P with
    | nil =>
      rw [matchpattern_nil, Option.some.injEq] at h
      exact h ▸ List.suffix_refl text
    | cons t0 P1 => simp at hP
  | succ n ih =>
    intro P hP text r h
    cases P with
    | nil =>
      rw [matchpattern_nil, Option.some.injEq] at h
      exact h ▸ List.suffix_refl text
    | cons t0 P1 =>
      cases P1 with
      | nil =>
        cases text with
        | nil =>
          rw [matchpattern_one_nil] at h
          split at h
          · simp only [Option.some.injEq] at h
            exact h ▸ List.suffix_refl []
          · simp at h
        | cons c text2 =>
          rw [matchpattern_one_cons] at h
          split at h
          · simp at h
          · split at h
            · simp only [Option.some.injEq] at h
              exact h ▸ List.suffix_cons c text2
            · simp at h
      | cons t1 rest =>
        rcases hq : quantBounds t1 with _ | ⟨lz, mn, mx⟩
        · cases text with
          | nil => rw [matchpattern_step_nil t0 t1 rest hq] at h; simp at h
          | cons c text2 =>
            rw [matchpattern_step_cons t0 t1 rest c text2 hq] at h
            split at h
            · have hs := ih (t1 :: rest) (by simp at hP ⊢; omega) text2 r h
              exact hs.trans (List.suffix_cons c text2)
            · simp at h
        · have hrest : rest.length ≤ n := by simp at hP; omega
          cases lz with
          | false =>
            rw [matchpattern_cons_greedy t0 t1 rest text mn mx hq] at h
            obtain ⟨i, _, hfi⟩ := greedyTry_some _ text mn _ r h
            exact (ih rest hrest _ r hfi).trans (List.drop_suffix i text)
          | true =>
            rw [matchpattern_cons_lazy t0 t1 rest text mn mx hq] at h
            unfold matchquant_lazy at h
            rcases hc : consumeExact t0 text mn with _ | text1 <;> rw [hc] at h
            · simp at h
            · obtain ⟨_, h2⟩ := consumeExact_some t0 mn text text1 hc
              obtain ⟨u, hu, hfu⟩ := lazyTry_some _ t0 _ text1 r h
              have h3 : text1 <:+ text := h2 ▸ List.drop_suffix mn text
              exact ((ih rest hrest u r hfu).trans hu).trans h3

/-- Wrapper of `matchpattern_suffix_bounded` without the explicit bound. -/
theorem matchpattern_suffix (P : List TreNode) (text r : List Nat)
    (h : matchpattern P text = some r) : r <:+ text :=
  matchpattern_suffix_bounded P.length P (Nat.le_refl _) text r h

/-- A suffix is recovered by dropping the length difference. -/
theorem suffix_eq_drop {r T : List Nat} (h : r <:+ T) :
    r = T.drop (T.length - r.length) := by
  obtain ⟨u, rfl⟩ := h
  rw [List.length_append, Nat.add_sub_cancel, List.drop_left]

/-! ### Programs whose last instruction is the end anchor -/

/-- If the last live instruction of a program is the end anchor, every
successful `matchpattern` run ends with the text fully consumed. -/
theorem matchpattern_end_bounded :
    ∀ (n : Nat) (P : List TreNode), P.length ≤ n → P.getLast? = some TreNode.END →
      ∀ (text r : List Nat), matchpattern P text = some r → r = [] := by
  intro n
  induction n with
  | zero =>
    intro P hP hlast text r h
    cases P with
    | nil => simp at hlast
    | cons t0 P1 => simp at hP
  | succ n ih =>
    intro P hP hlast text r h
    cases P with
    | nil => simp at hlast
    | cons t0 P1 =>
      cases P1 with
      | nil =>
        have ht0 : t0 = TreNode.END := by simpa using hlast
        subst ht0
        cases text with
        | nil =>
          rw [matchpattern_one_nil] at h
          simpa using h.symm
        | cons c text2 =>
          rw [matchpattern_one_cons] at h
          simp at h
      | cons t1 rest =>
        have hlast2 : (t1 :: rest).getLast? = some TreNode.END := by
          rwa [List.getLast?_cons_cons] at hlast
        rcases hq : quantBounds t1 with _ | ⟨lz, mn, mx⟩
        · cases text with
          | nil => rw [matchpattern_step_nil t0 t1 rest hq] at h; simp at h
          | cons c text2 =>
            rw [matchpattern_step_cons t0 t1 rest c text2 hq] at h
            split at h
            · exact ih (t1 :: rest) (by simp at hP ⊢; omega) hlast2 text2 r h
            · simp at h
        · have hrest : rest.getLast? = some TreNode.END := by
            cases rest with
            | nil =>
              have : t1 = TreNode.END := by simpa using hlast2
              subst this
              simp [quantBounds] at hq
            | cons r0 rest2 => rwa [List.getLast?_cons_cons] at hlast2
          have hlen : rest.length ≤ n := by simp at hP; omega
          cases lz with
          | false =>
            rw [matchpattern_cons_greedy t0 t1 rest text mn mx hq] at h
            obtain ⟨i, _, hfi⟩ := greedyTry_some _ text mn _ r h
            exact ih rest hlen hrest _ r hfi
          | true =>
            rw [matchpattern_cons_lazy t0 t1 rest text mn mx hq] at h
            unfold matchquant_lazy at h
            rcases hc : consumeExact t0 text mn with _ | text1 <;> rw [hc] at h
            · simp at h
            · obtain ⟨u, _, hfu⟩ := lazyTry_some _ t0 _ text1 r h
              exact ih rest hlen hrest u r hfu

/-- Wrapper of `matchpattern_end_bounded` without the explicit bound. -/
theorem matchpattern_end_anchor (P : List TreNode) (hlast : P.getLast? = some TreNode.END)
    (text r : List Nat) (h : matchpattern P text = some r) : r = [] :=
  matchpattern_end_bounded P.length P (Nat.le_refl _) hlast text r h

/-! ### The scan driver -/

/-- Characterization of a successful scan: the match is at the first
offset (relative to the scan start `s0`) where `matchpattern` succeeds;
all smaller offsets fail, and the end offset is start plus the consumed
length. -/
theorem scanLoop_some (P : List TreNode) :
    ∀ (text : List Nat) (s0 s e : Nat), scanLoop P text s0 = some (s, e) →
      ∃ k r, k ≤ text.length ∧ s = s0 + k ∧
        matchpattern P (text.drop k) = some r ∧
        e = s + ((text.drop k).length - r.length) ∧
        ∀ k2, k2 < k → matchpattern P (text.drop k2) = none := by
  intro text
  induction text with
  | nil =>
    intro s0 s e h
    simp only [scanLoop] at h
    split at h
    · rename_i r heq
      simp only [Option.some.injEq, Prod.mk.injEq] at h
      obtain ⟨hs, he⟩ := h
      subst hs
      exact ⟨0, r, Nat.le_refl 0, rfl, heq, he.symm, by omega⟩
    · simp at h
  | cons c text2 ih =>
    intro s0 s e h
    simp only [scanLoop] at h
    split at h
    · rename_i r heq
      simp only [Option.some.injEq, Prod.mk.injEq] at h
      obtain ⟨hs, he⟩ := h
      subst hs
      exact ⟨0, r, Nat.zero_le _, rfl, heq, he.symm, by omega⟩
    · rename_i heq
      obtain ⟨k, r, hk, hs, hm, he, hmin⟩ := ih (s0 + 1) s e h
      refine ⟨k + 1, r, by simpa using Nat.succ_le_succ hk, by omega, ?_, ?_, ?_⟩
      · simpa [List.drop_succ_cons] using hm
      · simpa [List.drop_succ_cons] using he
      · intro k2 hk2
        cases k2 with
        | zero => simpa using heq
        | succ k3 => simpa [List.drop_succ_cons] using hmin k3 (by omega)

/-- Characterization of a failed scan: `matchpattern` fails at every
offset 0, 1, ..., `length text` (the terminal empty suffix included). -/
theorem scanLoop_none (P : List TreNode) :
    ∀ (text : List Nat) (s0 : Nat), scanLoop P text s0 = none →
      ∀ k, k ≤ text.length → matchpattern P (text.drop k) = none := by
  intro text
  induction text with
  | nil =>
    intro s0 h k hk
    simp only [scanLoop] at h
    split at h
    · simp at h
    · rename_i heq
      have hk0 : k = 0 := by simpa using hk
      subst hk0
      exact heq
  | cons c text2 ih =>
    intro s0 h k hk
    simp only [scanLoop] at h
    split at h
    · simp at h
    · rename_i heq
      cases k with
      | zero => exact heq
      | succ k2 =>
        rw [List.drop_succ_cons]
        exact ih (s0 + 1) h k2 (by simpa using hk)

/-- Two programs that match pointwise identically scan identically. -/
theorem scanLoop_congr (P1 P2 : List TreNode)
    (hpt : ∀ u, matchpattern P1 u = matchpattern P2 u) :
    ∀ (text : List Nat) (s : Nat), scanLoop P1 text s = scanLoop P2 text s := by
  intro text
  induction text with
  | nil => intro s; simp only [scanLoop, hpt]
  | cons c text2 ih => intro s; simp only [scanLoop, hpt, ih]

/-- Unfolding of `tre_match` on an anchored program. -/
theorem tre_match_begin (P1 : List TreNode) (text : List Nat) :
    tre_match (TreNode.BEGIN :: P1) text =
      match matchpattern P1 text with
      | some r => some (0, text.length - r.length)
      | none => none := rfl

/-- Unfolding of `tre_match` on an unanchored program: the scan loop runs
from offset 0. -/
theorem tre_match_unanchored (P : List TreNode) (h : isBeginHead P = false)
    (text : List Nat) : tre_match P text = scanLoop P text 0 := by
  cases P with
  | nil => rfl
  | cons t0 P1 => cases t0 <;> first | rfl | simp [isBeginHead] at h

/-! ### Compiler invariants -/

theorem escNode_atom (c2 : Nat) : isAtomNode (escNode c2) = true := by
  simp only [escNode]
  split_ifs <;> rfl

theorem escNode_not_quant (c2 : Nat) : isQuantNode (escNode c2) = false := by
  simp only [escNode]
  split_ifs <;> rfl

theorem isAtomNode_not_quant (t : TreNode) (h : isAtomNode t = true) :
    isQuantNode t = false := by
  cases t <;> simp_all [isAtomNode, isQuantNode, quantBounds]

theorem escNode_ne_class (c2 : Nat) (l : List Nat) :
    escNode c2 ≠ TreNode.CLASS l ∧ escNode c2 ≠ TreNode.NCLASS l := by
  unfold escNode
  split_ifs <;> exact ⟨fun hx => TreNode.noConfusion hx, fun hx => TreNode.noConfusion hx⟩

theorem classFit_nil : classFit [] := by
  intro l hl
  rcases hl with h | h <;> simp at h

theorem classFit_cons (node : TreNode) (a : List TreNode)
    (hnode : ∀ l, node = TreNode.CLASS l ∨ node = TreNode.NCLASS l → l.length + 1 ≤ 128)
    (ha : classFit a) : classFit (node :: a) := by
  intro l hl
  rcases hl with hl | hl <;> rcases List.mem_cons.mp hl with h | h
  · exact hnode l (Or.inl h.symm)
  · exact ha l (Or.inl h)
  · exact hnode l (Or.inr h.symm)
  · exact ha l (Or.inr h)

theorem classFit_cons_nonatom (node : TreNode) (a : List TreNode)
    (hn : isAtomNode node = false) (ha : classFit a) : classFit (node :: a) := by
  refine classFit_cons node a ?_ ha
  intro l hl
  rcases hl with rfl | rfl <;> simp [isAtomNode] at hn

/-- Unfolding of the class scan when the pattern is exhausted: the C
loop's `pattern[i] == '\0'` exit reports a non-terminated class. -/
theorem parseClass_nil (fuel b : Nat) : parseClass fuel [] b = none := by
  cases fuel <;> rfl

theorem parseClass_zero (c : Nat) (p : List Nat) (b : Nat) :
    parseClass 0 (c :: p) b = none := rfl

/-- Unfolding of one step of the class scan. -/
theorem parseClass_succ_cons (fuel c : Nat) (p : List Nat) (b : Nat) :
    parseClass (fuel + 1) (c :: p) b =
      (if c == 93 then some ([], p, b + 1)
      else if c == 92 then classEsc (parseClass fuel) p b
      else classAtom (parseClass fuel) c p b) := rfl

/-- A successful ordinary class step keeps the buffer index (plus the
written bytes) within the last slot reserved for the NUL terminator:
every write is guarded by a capacity check. -/
theorem classAtom_content_le (k : List Nat → Nat → Option (List Nat × List Nat × Nat))
    (c : Nat) (p : List Nat) (bufidx : Nat) (content rest : List Nat) (b2 : Nat)
    (hk : ∀ (p' : List Nat) (b' : Nat) (cc rr : List Nat) (bb : Nat),
      k p' b' = some (cc, rr, bb) → cc = [] ∨ b' + cc.length ≤ 127)
    (h : classAtom k c p bufidx = some (content, rest, b2)) :
    bufidx + content.length ≤ 127 := by
  unfold classAtom at h
  split at h
  · split at h
    · rename_i e p3
      split at h
      · exact Option.noConfusion h
      · rename_i hcap
        split at h
        · exact Option.noConfusion h
        · rename_i hbuf
          obtain ⟨x, hx, hxx⟩ := Option.map_eq_some'.mp h
          obtain ⟨cc, rr, bb⟩ := x
          simp only [Prod.mk.injEq] at hxx
          rcases hk _ _ _ _ _ hx with hcc | hcc
          · subst hcc
            rw [← hxx.1]
            simp only [List.length_cons, List.length_nil]
            omega
          · rw [← hxx.1]
            simp only [List.length_cons]
            omega
    · exact Option.noConfusion h
  · split at h
    · exact Option.noConfusion h
    · rename_i hbuf
      obtain ⟨x, hx, hxx⟩ := Option.map_eq_some'.mp h
      obtain ⟨cc, rr, bb⟩ := x
      simp only [Prod.mk.injEq] at hxx
      rcases hk _ _ _ _ _ hx with hcc | hcc
      · subst hcc
        rw [← hxx.1]
        simp only [List.length_cons, List.length_nil]
        omega
      · rw [← hxx.1]
        simp only [List.length_cons]
        omega

/-- The same buffer bound for the backslash step. -/
theorem classEsc_content_le (k : List Nat → Nat → Option (List Nat × List Nat × Nat))
    (p : List Nat) (bufidx : Nat) (content rest : List Nat) (b2 : Nat)
    (hk : ∀ (p' : List Nat) (b' : Nat) (cc rr : List Nat) (bb : Nat),
      k p' b' = some (cc, rr, bb) → cc = [] ∨ b' + cc.length ≤ 127)
    (h : classEsc k p bufidx = some (content, rest, b2)) :
    bufidx + content.length ≤ 127 := by
  cases p with
  | nil => simp [classEsc] at h
  | cons c2 p2 =>
    simp only [classEsc] at h
    split at h
    · split at h
      · exact Option.noConfusion h
      · rename_i hbuf
        obtain ⟨x, hx, hxx⟩ := Option.map_eq_some'.mp h
        obtain ⟨cc, rr, bb⟩ := x
        simp only [Prod.mk.injEq] at hxx
        rcases hk _ _ _ _ _ hx with hcc | hcc
        · subst hcc
          rw [← hxx.1]
          simp only [List.length_cons, List.length_nil]
          omega
        · rw [← hxx.1]
          simp only [List.length_cons]
          omega
    · exact classAtom_content_le k c2 p2 bufidx content rest b2 hk h

/-- A successful class scan starting at buffer index `b0` writes contents
that leave the index within 127, so content plus NUL terminator always
fits the 128-byte buffer (the content is empty exactly for `[]`-closing
right away, where only the NUL is written). -/
theorem parseClass_content_le :
    ∀ (fuel : Nat) (p : List Nat) (b0 : Nat) (content rest : List Nat) (b2 : Nat),
      parseClass fuel p b0 = some (content, rest, b2) →
      content = [] ∨ b0 + content.length ≤ 127 := by
  intro fuel
  induction fuel with
  | zero =>
    intro p b0 content rest b2 h
    cases p with
    | nil => rw [parseClass_nil] at h; exact Option.noConfusion h
    | cons c p1 => rw [parseClass_zero] at h; exact Option.noConfusion h
  | succ fuel ih =>
    intro p b0 content rest b2 h
    cases p with
    | nil => rw [parseClass_nil] at h; exact Option.noConfusion h
    | cons c p1 =>
      rw [parseClass_succ_cons] at h
      split at h
      · simp only [Option.some.injEq, Prod.mk.injEq] at h
        exact Or.inl h.1.symm
      · split at h
        · exact Or.inr (classEsc_content_le _ _ _ _ _ _
            (fun p' b' cc rr bb hx => ih p' b' cc rr bb hx) h)
        · exact Or.inr (classAtom_content_le _ _ _ _ _ _ _
            (fun p' b' cc rr bb hx => ih p' b' cc rr bb hx) h)

theorem quantPlaced_nil (b : Bool) : quantPlaced b [] = true := rfl

theorem quantPlaced_cons (isch : Bool) (node : TreNode) (a : List TreNode)
    (h1 : isQuantNode node = true → isch = true)
    (h2 : quantPlaced (isAtomNode node) a = true) :
    quantPlaced isch (node :: a) = true := by
  unfold quantPlaced
  rw [h2, Bool.and_true]
  cases hq : isQuantNode node
  · simp
  · simp [h1 hq]

/-- Invariant transfer for the `*`, `+`, `?` cases: with the continuation
respecting the invariant, the emitted quantifier node sits after an atom
(the flag is true at the call site) and capacity is respected. -/
theorem quantMarkCase_spec (k : List Nat → Nat → Nat → Bool → Option (List TreNode))
    (lazyNode greedyNode : TreNode) (p1 : List Nat) (j bufidx : Nat) (ns : List TreNode)
    (hk : ∀ (p' : List Nat) (j' b' : Nat) (i' : Bool) (ns' : List TreNode),
      k p' j' b' i' = some ns' →
      quantPlaced i' ns' = true ∧ ns'.length ≤ 63 - j' ∧ classFit ns')
    (hj : j + 1 < 64)
    (hla : isAtomNode lazyNode = false) (hga : isAtomNode greedyNode = false)
    (h : quantMarkCase k lazyNode greedyNode p1 j bufidx = some ns) :
    quantPlaced true ns = true ∧ ns.length ≤ 63 - j ∧ classFit ns := by
  unfold quantMarkCase at h
  split at h
  · obtain ⟨a, ha, hns⟩ := Option.map_eq_some'.mp h
    obtain ⟨hq1, hl1, hc1⟩ := hk _ _ _ _ _ ha
    subst hns
    exact ⟨quantPlaced_cons _ _ _ (fun _ => rfl) (by rw [hla]; exact hq1),
      by simp only [List.length_cons]; omega, classFit_cons_nonatom _ _ hla hc1⟩
  · obtain ⟨a, ha, hns⟩ := Option.map_eq_some'.mp h
    obtain ⟨hq1, hl1, hc1⟩ := hk _ _ _ _ _ ha
    subst hns
    exact ⟨quantPlaced_cons _ _ _ (fun _ => rfl) (by rw [hga]; exact hq1),
      by simp only [List.length_cons]; omega, classFit_cons_nonatom _ _ hga hc1⟩

/-- Invariant transfer for the escape case: the emitted node is an atom,
so the invariant holds whatever the incoming flag was. -/
theorem escCase_spec (k : List Nat → Nat → Nat → Bool → Option (List TreNode))
    (p1 : List Nat) (j bufidx : Nat) (ns : List TreNode)
    (hk : ∀ (p' : List Nat) (j' b' : Nat) (i' : Bool) (ns' : List TreNode),
      k p' j' b' i' = some ns' →
      quantPlaced i' ns' = true ∧ ns'.length ≤ 63 - j' ∧ classFit ns')
    (hj : j + 1 < 64) (isch : Bool)
    (h : escCase k p1 j bufidx = some ns) :
    quantPlaced isch ns = true ∧ ns.length ≤ 63 - j ∧ classFit ns := by
  cases p1 with
  | nil => simp [escCase] at h
  | cons c2 p2 =>
    simp only [escCase] at h
    obtain ⟨a, ha, hns⟩ := Option.map_eq_some'.mp h
    obtain ⟨hq1, hl1, hc1⟩ := hk _ _ _ _ _ ha
    subst hns
    refine ⟨quantPlaced_cons _ _ _ (by simp [escNode_not_quant]) (by rw [escNode_atom]; exact hq1),
      by simp only [List.length_cons]; omega, classFit_cons _ _ ?_ hc1⟩
    rintro l (hx | hx)
    · exact absurd hx (escNode_ne_class c2 l).1
    · exact absurd hx (escNode_ne_class c2 l).2

/-- Invariant transfer for the class case. -/
theorem classCase_spec (k : List Nat → Nat → Nat → Bool → Option (List TreNode))
    (p1 : List Nat) (j bufidx : Nat) (ns : List TreNode)
    (hk : ∀ (p' : List Nat) (j' b' : Nat) (i' : Bool) (ns' : List TreNode),
      k p' j' b' i' = some ns' →
      quantPlaced i' ns' = true ∧ ns'.length ≤ 63 - j' ∧ classFit ns')
    (hj : j + 1 < 64) (isch : Bool)
    (h : classCase k p1 j bufidx = some ns) :
    quantPlaced isch ns = true ∧ ns.length ≤ 63 - j ∧ classFit ns := by
  unfold classCase at h
  split at h
  all_goals split at h
  all_goals try exact Option.noConfusion h
  all_goals
    (rename_i content rest bufidx2 heq
     obtain ⟨a, ha, hns⟩ := Option.map_eq_some'.mp h
     obtain ⟨hq1, hl1, hc1⟩ := hk _ _ _ _ _ ha
     subst hns
     refine ⟨quantPlaced_cons _ _ _ (by simp [isQuantNode, quantBounds])
       (by simpa [isAtomNode] using hq1), by simp only [List.length_cons]; omega,
       classFit_cons _ _ ?_ hc1⟩
     rintro l (hx | hx) <;>
       first
         | exact TreNode.noConfusion hx
         | (injection hx with hx2
            subst hx2
            rcases parseClass_content_le _ _ _ _ _ _ heq with hcc | hcc
            · rw [hcc]; simp only [List.length_nil]; omega
            · omega))

/-- Invariant transfer for the tail of the `{` case. -/
theorem quantFinish_spec (k : List Nat → Nat → Nat → Bool → Option (List TreNode))
    (vmin vmax : Nat) (pAfter : List Nat) (j bufidx : Nat) (ns : List TreNode)
    (hk : ∀ (p' : List Nat) (j' b' : Nat) (i' : Bool) (ns' : List TreNode),
      k p' j' b' i' = some ns' →
      quantPlaced i' ns' = true ∧ ns'.length ≤ 63 - j' ∧ classFit ns')
    (hj : j + 1 < 64)
    (h : quantFinish k vmin vmax pAfter j bufidx = some ns) :
    quantPlaced true ns = true ∧ ns.length ≤ 63 - j ∧ classFit ns := by
  unfold quantFinish at h
  split at h <;>
    (obtain ⟨a, ha, hns⟩ := Option.map_eq_some'.mp h
     obtain ⟨hq1, hl1, hc1⟩ := hk _ _ _ _ _ ha
     subst hns
     exact ⟨quantPlaced_cons _ _ _ (fun _ => rfl) (by simpa [isAtomNode] using hq1),
       by simp only [List.length_cons]; omega, classFit_cons_nonatom _ _ rfl hc1⟩)

/-- Invariant transfer for the whole `{` case. -/
theorem quantCase_spec (k : List Nat → Nat → Nat → Bool → Option (List TreNode))
    (p1 : List Nat) (j bufidx : Nat) (ns : List TreNode)
    (hk : ∀ (p' : List Nat) (j' b' : Nat) (i' : Bool) (ns' : List TreNode),
      k p' j' b' i' = some ns' →
      quantPlaced i' ns' = true ∧ ns'.length ≤ 63 - j' ∧ classFit ns')
    (hj : j + 1 < 64)
    (h : quantCase k p1 j bufidx = some ns) :
    quantPlaced true ns = true ∧ ns.length ≤ 63 - j ∧ classFit ns := by
  unfold quantCase at h
  repeat' split at h
  all_goals try exact Option.noConfusion h
  all_goals exact quantFinish_spec _ _ _ _ _ _ _ hk hj h

/-- Unfolding of `compileLoop` when the pattern is exhausted: the
sentinel is written and compilation succeeds. -/
theorem compileLoop_nil (fuel j bufidx : Nat) (ischar : Bool) :
    compileLoop fuel [] j bufidx ischar = some [] := by
  cases fuel <;> rfl

theorem compileLoop_zero (c : Nat) (p1 : List Nat) (j bufidx : Nat) (ischar : Bool) :
    compileLoop 0 (c :: p1) j bufidx ischar = none := rfl

/-- Unfolding of one iteration of the compiler's main loop. -/
theorem compileLoop_succ_cons (fuel c : Nat) (p1 : List Nat) (j bufidx : Nat) (ischar : Bool) :
    compileLoop (fuel + 1) (c :: p1) j bufidx ischar =
      (if 64 ≤ j + 1 then some []
      else if c == 94 then (compileLoop fuel p1 (j + 1) bufidx false).map (TreNode.BEGIN :: ·)
      else if c == 36 then (compileLoop fuel p1 (j + 1) bufidx false).map (TreNode.END :: ·)
      else if c == 46 then (compileLoop fuel p1 (j + 1) bufidx true).map (TreNode.DOT :: ·)
      else if c == 42 then
        if !ischar then none
        else quantMarkCase (compileLoop fuel) TreNode.LSTAR TreNode.STAR p1 j bufidx
      else if c == 43 then
        if !ischar then none
        else quantMarkCase (compileLoop fuel) TreNode.LPLUS TreNode.PLUS p1 j bufidx
      else if c == 63 then
        if !ischar then none
        else quantMarkCase (compileLoop fuel) TreNode.LQMARK TreNode.QMARK p1 j bufidx
      else if c == 92 then escCase (compileLoop fuel) p1 j bufidx
      else if c == 91 then classCase (compileLoop fuel) p1 j bufidx
      else if c == 123 then
        if !ischar then none
        else quantCase (compileLoop fuel) p1 j bufidx
      else (compileLoop fuel p1 (j + 1) bufidx true).map (TreNode.CHAR c :: ·)) := rfl

/-- Invariant of the compiler's main loop: an emitted instruction list
respects the quantifier-placement discipline enforced by the `ischar`
flag, and its length never exceeds the remaining node capacity
(at most `63 - j` further instructions are emitted, since the loop stops
once `j + 1 < 64` fails, always leaving room for the sentinel). -/
theorem compileLoop_spec :
    ∀ (fuel : Nat) (p : List Nat) (j bufidx : Nat) (isch : Bool) (ns : List TreNode),
      compileLoop fuel p j bufidx isch = some ns →
      quantPlaced isch ns = true ∧ ns.length ≤ 63 - j ∧ classFit ns := by
  intro fuel
  induction fuel with
  | zero =>
    intro p j bufidx isch ns h
    cases p with
    | nil =>
      rw [compileLoop_nil, Option.some.injEq] at h
      subst h
      exact ⟨quantPlaced_nil isch, by simp, classFit_nil⟩
    | cons c p1 => exact Option.noConfusion (compileLoop_zero c p1 j bufidx isch ▸ h)
  | succ fuel ih =>
    intro p j bufidx isch ns h
    cases p with
    | nil =>
      rw [compileLoop_nil, Option.some.injEq] at h
      subst h
      exact ⟨quantPlaced_nil isch, by simp, classFit_nil⟩
    | cons c p1 =>
      rw [compileLoop_succ_cons] at h
      have hmap : ∀ (node : TreNode) (p' : List Nat) (b' : Nat) (i' : Bool),
          (compileLoop fuel p' (j + 1) b' i').map (node :: ·) = some ns →
          (isQuantNode node = true → isch = true) → i' = isAtomNode node →
          (∀ l, node ≠ TreNode.CLASS l ∧ node ≠ TreNode.NCLASS l) →
          ¬64 ≤ j + 1 →
          quantPlaced isch ns = true ∧ ns.length ≤ 63 - j ∧ classFit ns := by
        intro node p' b' i' hm hqi hia hncls h64
        obtain ⟨a, ha, hns⟩ := Option.map_eq_some'.mp hm
        obtain ⟨hq1, hl1, hc1⟩ := ih _ _ _ _ _ ha
        subst hns
        refine ⟨quantPlaced_cons _ _ _ hqi ?_, ?_, classFit_cons _ _ ?_ hc1⟩
        · rw [← hia]; exact hq1
        · simp only [List.length_cons]; omega
        · rintro l (hx | hx)
          · exact absurd hx (hncls l).1
          · exact absurd hx (hncls l).2
      by_cases h64 : 64 ≤ j + 1
      · rw [if_pos h64, Option.some.injEq] at h
        subst h
        exact ⟨quantPlaced_nil isch, by simp, classFit_nil⟩
      · rw [if_neg h64] at h
        by_cases h94 : c == 94
        · rw [if_pos h94] at h
          exact hmap TreNode.BEGIN _ _ _ h (by simp [isQuantNode, quantBounds]) rfl
                            (fun l => ⟨fun hx => TreNode.noConfusion hx, fun hx => TreNode.noConfusion hx⟩) h64
        · rw [if_neg h94] at h
          by_cases h36 : c == 36
          · rw [if_pos h36] at h
            exact hmap TreNode.END _ _ _ h (by simp [isQuantNode, quantBounds]) rfl
                            (fun l => ⟨fun hx => TreNode.noConfusion hx, fun hx => TreNode.noConfusion hx⟩) h64
          · rw [if_neg h36] at h
            by_cases h46 : c == 46
            · rw [if_pos h46] at h
              exact hmap TreNode.DOT _ _ _ h (by simp [isQuantNode, quantBounds]) rfl
                            (fun l => ⟨fun hx => TreNode.noConfusion hx, fun hx => TreNode.noConfusion hx⟩) h64
            · rw [if_neg h46] at h
              by_cases h42 : c == 42
              · rw [if_pos h42] at h
                by_cases hic : !isch
                · rw [if_pos hic] at h; exact Option.noConfusion h
                · rw [if_neg hic] at h
                  have hisch : isch = true := by simpa using hic
                  subst hisch
                  exact quantMarkCase_spec _ TreNode.LSTAR TreNode.STAR _ _ _ _ ih (by omega) rfl rfl h
              · rw [if_neg h42] at h
                by_cases h43 : c == 43
                · rw [if_pos h43] at h
                  by_cases hic : !isch
                  · rw [if_pos hic] at h; exact Option.noConfusion h
                  · rw [if_neg hic] at h
                    have hisch : isch = true := by simpa using hic
                    subst hisch
                    exact quantMarkCase_spec _ TreNode.LPLUS TreNode.PLUS _ _ _ _ ih (by omega) rfl rfl h
                · rw [if_neg h43] at h
                  by_cases h63 : c == 63
                  · rw [if_pos h63] at h
                    by_cases hic : !isch
                    · rw [if_pos hic] at h; exact Option.noConfusion h
                    · rw [if_neg hic] at h
                      have hisch : isch = true := by simpa using hic
                      subst hisch
                      exact quantMarkCase_spec _ TreNode.LQMARK TreNode.QMARK _ _ _ _ ih (by omega) rfl rfl h
                  · rw [if_neg h63] at h
                    by_cases h92 : c == 92
                    · rw [if_pos h92] at h
                      exact escCase_spec _ _ _ _ _ ih (by omega) isch h
                    · rw [if_neg h92] at h
                      by_cases h91 : c == 91
                      · rw [if_pos h91] at h
                        exact classCase_spec _ _ _ _ _ ih (by omega) isch h
                      · rw [if_neg h91] at h
                        by_cases h123 : c == 123
                        · rw [if_pos h123] at h
                          by_cases hic : !isch
                          · rw [if_pos hic] at h; exact Option.noConfusion h
                          · rw [if_neg hic] at h
                            have hisch : isch = true := by simpa using hic
                            subst hisch
                            exact quantCase_spec _ _ _ _ _ ih (by omega) h
                        · rw [if_neg h123] at h
                          exact hmap (TreNode.CHAR c) _ _ _ h
                            (by simp [isQuantNode, quantBounds]) rfl
                            (fun l => ⟨fun hx => TreNode.noConfusion hx, fun hx => TreNode.noConfusion hx⟩) h64

/-- Reading the quantifier-placement invariant off the list: a quantifier
node at position `j` forces position 0 to have the incoming flag set, and
the node right before it to be an atom. -/
theorem quantPlaced_get :
    ∀ (l : List TreNode) (b : Bool), quantPlaced b l = true →
      ∀ j, j < l.length → isQuantNode (l.getD j TreNode.BEGIN) = true →
        (j = 0 → b = true) ∧
        (∀ i, j = i + 1 → isAtomNode (l.getD i TreNode.BEGIN) = true) := by
  intro l
  induction l with
  | nil => intro b hq j hj; simp at hj
  | cons t rest ih =>
    intro b hq j hj hqt
    rw [show quantPlaced b (t :: rest) =
          ((!isQuantNode t || b) && quantPlaced (isAtomNode t) rest) from rfl,
        Bool.and_eq_true] at hq
    obtain ⟨hq0, hqrest⟩ := hq
    cases j with
    | zero =>
      refine ⟨fun _ => ?_, fun i hi => absurd hi (by omega)⟩
      rw [List.getD_cons_zero] at hqt
      rcases Bool.or_eq_true_iff.mp hq0 with h1 | h1
      · rw [hqt] at h1; exact absurd h1 (by simp)
      · exact h1
    | succ j2 =>
      rw [List.getD_cons_succ] at hqt
      have hrec := ih (isAtomNode t) hqrest j2 (by simpa using hj) hqt
      refine ⟨fun h0 => absurd h0 (by omega), ?_⟩
      intro i hi
      have hi2 : i = j2 := by omega
      subst hi2
      cases i with
      | zero => exact hrec.1 rfl
      | succ i3 =>
        rw [List.getD_cons_succ]
        exact hrec.2 i3 rfl

/-! ### Greedy and lazy agree on singleton quantifier ranges -/

theorem greedyTry_lt (f : List Nat → Option (List Nat)) (text : List Nat) (mn k : Nat)
    (hk : k < mn) : greedyTry f text mn k = none := by
  cases k with
  | zero => simp only [greedyTry]; rw [if_neg (by omega)]
  | succ k2 => simp only [greedyTry]; rw [if_pos (by omega)]

theorem greedyTry_self (f : List Nat → Option (List Nat)) (text : List Nat) (mn : Nat) :
    greedyTry f text mn mn = f (text.drop mn) := by
  cases mn with
  | zero => simp [greedyTry]
  | succ m =>
    simp only [greedyTry]
    rw [if_neg (by omega)]
    rcases hf : f (text.drop (m + 1)) with _ | r
    · simp only [greedyTry_lt f text (m + 1) m (by omega)]
    · rfl

theorem lazyTry_one (f : List Nat → Option (List Nat)) (t : TreNode) (text : List Nat) :
    lazyTry f t text 1 = f text := by
  cases text with
  | nil => simp only [lazyTry]; rcases hf : f [] with _ | r <;> simp [hf]
  | cons c t2 => simp only [lazyTry]; rcases hf : f (c :: t2) with _ | r <;> simp [hf]

/-- With a singleton bound `{n}` the greedy and the lazy strategies give
identical results: both consume exactly `n` repetitions (failing if fewer
match) and then run the remainder there. -/
theorem matchquant_singleton (f : List Nat → Option (List Nat)) (t : TreNode)
    (text : List Nat) (n : Nat) :
    matchquant f t text n n = matchquant_lazy f t text n n := by
  unfold matchquant matchquant_lazy
  rcases hc : consumeExact t text n with _ | text1
  · have hk : maxConsume t text n ≠ n := by
      intro he
      rw [consumeExact_of_max t n text he] at hc
      exact Option.noConfusion hc
    have hlt : maxConsume t text n < n :=
      Nat.lt_of_le_of_ne (maxConsume_le t text n) hk
    rw [greedyTry_lt f text n _ hlt]
  · obtain ⟨hmax, hdrop⟩ := consumeExact_some t n text text1 hc
    rw [hmax, greedyTry_self, ← hdrop]
    show f text1 = lazyTry f t text1 (n - n + 1)
    rw [show n - n + 1 = 1 from by omega, lazyTry_one]

/-- The two-instruction programs `A{n}` and `A{n}?` match pointwise
identically. -/
theorem matchpattern_singleton_quant (A : TreNode) (n : Nat) (text : List Nat) :
    matchpattern [A, TreNode.QUANT n n] text =
      matchpattern [A, TreNode.LQUANT n n] text := by
  rw [matchpattern_cons_greedy A (TreNode.QUANT n n) [] text n n rfl,
      matchpattern_cons_lazy A (TreNode.LQUANT n n) [] text n n rfl,
      matchquant_singleton]

theorem isBeginHead_atom_cons (A : TreNode) (L : List TreNode)
    (hA : isAtomNode A = true) : isBeginHead (A :: L) = false := by
  cases A <;> simp_all [isAtomNode, isBeginHead]

theorem isBeginHead_nil : isBeginHead [] = false := rfl

/-- Bounds and restartability of an unanchored scan result. -/
theorem scan_result_bounds (P : List TreNode) (T : List Nat) (s e : Nat)
    (hsc : scanLoop P T 0 = some (s, e)) :
    s ≤ e ∧ e ≤ T.length ∧ matchpattern P (T.drop s) = some (T.drop e) := by
  obtain ⟨k, r, hk, hs, hm, he, _⟩ := scanLoop_some P T 0 s e hsc
  have hsk : s = k := by omega
  subst hsk
  have hsuf : r <:+ T.drop s := matchpattern_suffix _ _ _ hm
  have hrlen : r.length ≤ (T.drop s).length := hsuf.length_le
  have hdlen : (T.drop s).length = T.length - s := List.length_drop s T
  refine ⟨by omega, by omega, ?_⟩
  have hre : r = (T.drop s).drop ((T.drop s).length - r.length) := suffix_eq_drop hsuf
  rw [List.drop_drop] at hre
  rw [hm, hre]
  congr 2
  omega

/-! ### Claim theorems -/

/-- C1: for every successfully compiled pattern `P` and every text `T`,
the scan driver `tre_match` returns either no match or a pair `(s, e)`
with `0 ≤ s ≤ e ≤ length T`; moreover running the matcher `matchpattern`
directly at offset `s` of `T` (on the instruction list the driver hands
it, i.e. the program minus a leading begin anchor) consumes exactly up to
offset `e`. -/
theorem C1_match_bounds (pat : List Nat) (P : List TreNode) (T : List Nat) (s e : Nat)
    (hc : tre_compile pat = some P) (hm : tre_match P T = some (s, e)) :
    s ≤ e ∧ e ≤ T.length ∧ matchpattern (matchProg P) (T.drop s) = some (T.drop e) := by
  clear hc
  rcases P with _ | ⟨t0, P1⟩
  · rw [tre_match_unanchored [] isBeginHead_nil] at hm
    exact scan_result_bounds [] T s e hm
  · by_cases ht0 : t0 = TreNode.BEGIN
    · subst ht0
      rw [tre_match_begin] at hm
      split at hm
      · rename_i r heq
        simp only [Option.some.injEq, Prod.mk.injEq] at hm
        obtain ⟨hs, he⟩ := hm
        subst hs
        subst he
        have hsuf : r <:+ T := matchpattern_suffix _ _ _ heq
        refine ⟨by omega, by omega, ?_⟩
        show matchpattern P1 T = some (T.drop (T.length - r.length))
        rw [heq, ← suffix_eq_drop hsuf]
      · exact Option.noConfusion hm
    · have hbh : isBeginHead (t0 :: P1) = false := by
        cases t0 <;> first | exact absurd rfl ht0 | simp [isBeginHead]
      rw [tre_match_unanchored _ hbh] at hm
      have hres := scan_result_bounds (t0 :: P1) T s e hm
      have hmp : matchProg (t0 :: P1) = t0 :: P1 := by
        cases t0 <;> first | rfl | exact absurd rfl ht0
      rw [hmp]
      exact hres

/-- Witness for C1 at the pattern `"a"` and text `"a"`. -/
theorem C1_match_bounds_witness :
    0 ≤ 1 ∧ 1 ≤ ([97] : List Nat).length ∧
      matchpattern (matchProg [TreNode.CHAR 97]) (([97] : List Nat).drop 0) =
        some (([97] : List Nat).drop 1) :=
  C1_match_bounds [97] [TreNode.CHAR 97] [97] 0 1 (by decide) (by decide)

/-- C2: if the program's first instruction is the begin anchor (pattern
`^P`), any returned match starts at offset 0; and if the end anchor sits
immediately before the sentinel (pattern `P$`, last live instruction
`END`), any returned match ends at `length T`. -/
theorem C2_anchor_endpoints (P P1 : List TreNode) (T : List Nat) (s e : Nat) :
    (P = TreNode.BEGIN :: P1 → tre_match P T = some (s, e) → s = 0) ∧
    (P.getLast? = some TreNode.END → tre_match P T = some (s, e) → e = T.length) := by
  constructor
  · rintro rfl hm
    rw [tre_match_begin] at hm
    split at hm
    · simp only [Option.some.injEq, Prod.mk.injEq] at hm
      exact hm.1.symm
    · exact Option.noConfusion hm
  · intro hlast hm
    cases hbP : isBeginHead P
    · rw [tre_match_unanchored P hbP] at hm
      obtain ⟨k, r, hk, hs, hmx, he, _⟩ := scanLoop_some P T 0 s e hm
      have hr : r = [] := matchpattern_end_anchor P hlast _ r hmx
      subst hr
      rw [List.length_drop] at he
      simp only [List.length_nil] at he
      omega
    · obtain ⟨Q, rfl⟩ : ∃ Q, P = TreNode.BEGIN :: Q := by
        cases P with
        | nil => simp [isBeginHead] at hbP
        | cons t0 Q => cases t0 <;> first | exact ⟨Q, rfl⟩ | simp [isBeginHead] at hbP
      rw [tre_match_begin] at hm
      split at hm
      · rename_i r heq
        have hlast1 : Q.getLast? = some TreNode.END := by
          cases Q with
          | nil => simp at hlast
          | cons q Q2 => rwa [List.getLast?_cons_cons] at hlast
        have hr : r = [] := matchpattern_end_anchor Q hlast1 T r heq
        subst hr
        simp only [Option.some.injEq, Prod.mk.injEq, List.length_nil] at hm
        omega
      · exact Option.noConfusion hm

/-- Witness for C2 at the program compiled from `"^$"` and the empty
text. -/
theorem C2_anchor_endpoints_witness : (0 : Nat) = 0 ∧ (0 : Nat) = ([] : List Nat).length := by
  have h := C2_anchor_endpoints [TreNode.BEGIN, TreNode.END] [TreNode.END] ([] : List Nat) 0 0
  exact ⟨h.1 rfl (by decide), h.2 (by decide) (by decide)⟩

/-- C3 counterexample: the terminal empty suffix is tried as a candidate
start even when the program is not empty.  The pattern `"$"` compiles to
the nonempty program `[END]`, and on the text `"b"` the scan driver tries
and returns the candidate start at offset `1 = length T`. -/
theorem C3_terminal_offset_cex :
    tre_compile [36] = some [TreNode.END] ∧
    ([TreNode.END] : List TreNode) ≠ [] ∧
    tre_match [TreNode.END] [98] = some (1, 1) := by
  decide

/-- C3 amended: for an unanchored program the scan driver tries candidate
start offsets 0, 1, 2, ... in increasing order and returns the match at
the first offset where the matcher succeeds (no smaller offset admits a
match); the terminal empty suffix at offset `length T` is always tried as
the last candidate, whether or not the program is empty (so a no-match
answer means the matcher failed at every offset up to and including
`length T`). -/
theorem C3_first_offset (P : List TreNode) (T : List Nat) (s e : Nat)
    (hP : isBeginHead P = false) :
    (tre_match P T = some (s, e) →
      s ≤ T.length ∧ (matchpattern P (T.drop s)).isSome = true ∧
        ∀ s2, s2 < s → matchpattern P (T.drop s2) = none) ∧
    (tre_match P T = none → ∀ k, k ≤ T.length → matchpattern P (T.drop k) = none) := by
  constructor
  · intro hm
    rw [tre_match_unanchored P hP] at hm
    obtain ⟨k, r, hk, hs, hmx, he, hmin⟩ := scanLoop_some P T 0 s e hm
    have hsk : s = k := by omega
    subst hsk
    exact ⟨hk, by rw [hmx]; rfl, fun s2 h2 => hmin s2 h2⟩
  · intro hm
    rw [tre_match_unanchored P hP] at hm
    exact scanLoop_none P T 0 hm

/-- Witness for C3 at the program `[CHAR 'a']` and text `"ba"`. -/
theorem C3_first_offset_witness :
    1 ≤ ([98, 97] : List Nat).length ∧
      (matchpattern [TreNode.CHAR 97] (([98, 97] : List Nat).drop 1)).isSome = true ∧
      ∀ s2, s2 < 1 → matchpattern [TreNode.CHAR 97] (([98, 97] : List Nat).drop s2) = none :=
  (C3_first_offset [TreNode.CHAR 97] [98, 97] 1 2 (by decide)).1 (by decide)

/-- C4: the compiled class atom `[a-c]` consumes exactly the bytes
`'a', 'b', 'c'` (97, 98, 99), the negated atom `[^a-c]` consumes exactly
the other bytes, and no atom (negated classes included) matches at the
string terminator: a single-atom program fails on the empty remainder of
the text. -/
theorem C4_class_atoms :
    tre_compile [91, 97, 45, 99, 93] = some [TreNode.CLASS [97, 45, 99]] ∧
    tre_compile [91, 94, 97, 45, 99, 93] = some [TreNode.NCLASS [97, 45, 99]] ∧
    (∀ c : Nat, matchone (TreNode.CLASS [97, 45, 99]) c = true ↔ (c = 97 ∨ c = 98 ∨ c = 99)) ∧
    (∀ c : Nat, matchone (TreNode.NCLASS [97, 45, 99]) c = true ↔ ¬(c = 97 ∨ c = 98 ∨ c = 99)) ∧
    (∀ t : TreNode, isAtomNode t = true → matchpattern [t] [] = none) := by
  refine ⟨by decide, by decide, ?_, ?_, ?_⟩
  · intro c
    simp [matchone, matchcharclass]
    omega
  · intro c
    simp [matchone, matchcharclass]
    omega
  · intro t ht
    cases t <;> first | rfl | simp [isAtomNode] at ht

/-- Witness for C4: the class accepts `'b'` and the dot atom fails at the
terminator. -/
theorem C4_class_atoms_witness :
    matchone (TreNode.CLASS [97, 45, 99]) 98 = true ∧
      matchpattern [TreNode.DOT] [] = none :=
  ⟨(C4_class_atoms.2.2.1 98).mpr (Or.inr (Or.inl rfl)),
    C4_class_atoms.2.2.2.2 TreNode.DOT rfl⟩

set_option maxRecDepth 8000 in
/-- C5 counterexample: a quantifier character in a forbidden context is
not rejected when it lies beyond the instruction-capacity truncation
point.  In the pattern of 63 `'a'`s followed by `"**"`, the second `*`
appears directly after another quantifier character, yet compilation
succeeds (with the 63 literal instructions compiled so far). -/
theorem C5_quant_context_cex :
    tre_compile (List.replicate 63 97 ++ [42, 42]) =
      some (List.replicate 63 (TreNode.CHAR 97)) := by
  decide

/-- C5 amended: compilation fails whenever the compiler consumes a
quantifier character (`*`, `+`, `?`, `{`) while the last-atom-quantifiable
flag is false — at the start of the pattern, directly after `^` or `$`,
or directly after another quantifier — provided that point is reached
before the 64-node capacity stops the loop; quantifier characters beyond
the truncation point are never consumed, so such patterns still compile.
In particular `compile("a**")` is a compile error. -/
theorem C5_quant_context :
    (∀ (p : List Nat) (c : Nat) (fuel j bufidx : Nat),
      (c = 42 ∨ c = 43 ∨ c = 63 ∨ c = 123) → j + 1 < 64 →
      compileLoop (fuel + 1) (c :: p) j bufidx false = none) ∧
    tre_compile [97, 42, 42] = none := by
  constructor
  · intro p c fuel j bufidx hcq hj
    rw [compileLoop_succ_cons, if_neg (by omega)]
    rcases hcq with rfl | rfl | rfl | rfl <;> simp
  · decide

/-- Witness for C5: a pattern starting with `*` is rejected by the loop
right away. -/
theorem C5_quant_context_witness : compileLoop 1 [42] 0 0 false = none :=
  C5_quant_context.1 [] 42 0 0 0 (Or.inl rfl) (by decide)

set_option maxRecDepth 8000 in
/-- C6 counterexample: a pattern of 64 literal `'a'`s needs 64
instructions, exceeding the 64-slot array's live capacity of 63 (one slot
is reserved for the sentinel); the claim demands a reported failure, but
compilation succeeds with a silently truncated 63-instruction program. -/
theorem C6_capacity_cex :
    tre_compile (List.replicate 64 97) = some (List.replicate 63 (TreNode.CHAR 97)) := by
  decide

/-- On a pattern of plain literal bytes the compiler's main loop always
succeeds, emitting one `TRE_CHAR` instruction per byte until the
instruction array fills and the loop exits with the rest of the pattern
silently dropped. -/
theorem compileLoop_plain :
    ∀ (fuel : Nat) (p : List Nat) (j bufidx : Nat) (isch : Bool),
      (∀ c ∈ p, isPlainChar c = true) → p.length ≤ fuel →
      compileLoop fuel p j bufidx isch = some ((p.take (63 - j)).map TreNode.CHAR) := by
  intro fuel
  induction fuel with
  | zero =>
    intro p j bufidx isch hp hl
    cases p with
    | nil => rw [compileLoop_nil, List.take_nil, List.map_nil]
    | cons c p1 => simp at hl
  | succ fuel ih =>
    intro p j bufidx isch hp hl
    cases p with
    | nil => rw [compileLoop_nil, List.take_nil, List.map_nil]
    | cons c p1 =>
      have hc := of_decide_eq_true (hp c (List.mem_cons_self c p1))
      obtain ⟨h0, h94, h36, h46, h42, h43, h63c, h92, h91, h123⟩ := hc
      rw [compileLoop_succ_cons]
      by_cases h64 : 64 ≤ j + 1
      · rw [if_pos h64]
        have hj0 : 63 - j = 0 := by omega
        rw [hj0, List.take_zero, List.map_nil]
      · rw [if_neg h64, if_neg (by simpa using h94), if_neg (by simpa using h36),
          if_neg (by simpa using h46), if_neg (by simpa using h42),
          if_neg (by simpa using h43), if_neg (by simpa using h63c),
          if_neg (by simpa using h92), if_neg (by simpa using h91),
          if_neg (by simpa using h123),
          ih p1 (j + 1) bufidx true (fun x hx => hp x (List.mem_cons_of_mem c hx))
            (by simpa using Nat.le_of_succ_le_succ hl)]
        have hj1 : 63 - j = (63 - (j + 1)) + 1 := by omega
        rw [Option.map_some', hj1, List.take_succ_cons, List.map_cons]

set_option maxRecDepth 20000 in
/-- C6 amended: a successful compile never holds more than 63
instructions, and every class atom it emits has contents that, with
their NUL terminator, fit the 128-byte auxiliary buffer (while a class is
being scanned, buffer exhaustion is a reported failure: a single class of
128 literal bytes fails to compile); but a capacity excess is not always
a reported failure: once the instruction array fills, the loop returns
success with a silently truncated program — every pattern of 64 or more
plain literal bytes compiles to exactly its first 63 literal
instructions — and pattern text beyond the truncation point is never
validated at all, so 63 `'a'`s followed by that same oversized class
still compile successfully. -/
theorem C6_capacity :
    (∀ (pat : List Nat) (P : List TreNode), tre_compile pat = some P → P.length ≤ 63) ∧
    (∀ (pat : List Nat) (P : List TreNode), tre_compile pat = some P → classFit P) ∧
    (∀ (p : List Nat), (∀ c ∈ p, isPlainChar c = true) → 64 ≤ p.length →
      tre_compile p = some ((p.take 63).map TreNode.CHAR)) ∧
    tre_compile (91 :: (List.replicate 128 97 ++ [93])) = none ∧
    tre_compile (List.replicate 63 97 ++ (91 :: (List.replicate 128 97 ++ [93]))) =
      some (List.replicate 63 (TreNode.CHAR 97)) := by
  refine ⟨?_, ?_, ?_, by decide, by decide⟩
  · intro pat P h
    unfold tre_compile at h
    split at h
    · exact Option.noConfusion h
    · simpa using (compileLoop_spec _ _ _ _ _ _ h).2.1
  · intro pat P h
    unfold tre_compile at h
    split at h
    · exact Option.noConfusion h
    · exact (compileLoop_spec _ _ _ _ _ _ h).2.2
  · intro p hp hlen
    unfold tre_compile
    rw [if_neg (by cases p with | nil => simp at hlen | cons c p1 => simp)]
    simpa using compileLoop_plain p.length p 0 0 false hp (le_refl _)

set_option maxRecDepth 8000 in
/-- Witness for C6's truncation clause at the pattern of 64 `'a'`s. -/
theorem C6_capacity_witness :
    tre_compile (List.replicate 64 97) =
      some (((List.replicate 64 97).take 63).map TreNode.CHAR) :=
  C6_capacity.2.2.1 (List.replicate 64 97) (by decide) (by decide)

/-- C7: the lazy quantifier consumes its atom exactly `min` times
(failing when fewer are available), then tries the remainder of the
program at that minimal position first, so the shortest extension wins;
in particular `a??` on `"aa"` returns the match `(0, 0)`. -/
theorem C7_lazy_min_first :
    (∀ (t : TreNode) (rest : List TreNode) (text : List Nat) (mn mx : Nat),
      consumeExact t text mn = none →
      matchquant_lazy (fun s => matchpattern rest s) t text mn mx = none) ∧
    (∀ (t : TreNode) (rest : List TreNode) (text text1 : List Nat) (mn mx : Nat)
      (r : List Nat), consumeExact t text mn = some text1 →
      matchpattern rest text1 = some r →
      matchquant_lazy (fun s => matchpattern rest s) t text mn mx = some r) ∧
    tre_compile [97, 63, 63] = some [TreNode.CHAR 97, TreNode.LQMARK] ∧
    tre_match [TreNode.CHAR 97, TreNode.LQMARK] [97, 97] = some (0, 0) := by
  refine ⟨?_, ?_, by decide, by decide⟩
  · intro t rest text mn mx hc
    unfold matchquant_lazy
    rw [hc]
  · intro t rest text text1 mn mx r hc hr
    unfold matchquant_lazy
    rw [hc]
    show lazyTry (fun s => matchpattern rest s) t text1 (mx - mn + 1) = some r
    exact lazyTry_found _ t text1 r _ (by omega) hr

/-- Witness for C7 with the atom `'a'` on `"a"` and min 1. -/
theorem C7_lazy_min_first_witness :
    matchquant_lazy (fun s => matchpattern [] s) (TreNode.CHAR 97) [97] 1 3 = some [] :=
  C7_lazy_min_first.2.1 (TreNode.CHAR 97) [] [97] [] 1 3 [] (by decide) (by decide)

/-- C8: for every atom `A`, every `n` within the quantifier ceiling
(`TRE_MAXQUANT = 1024`) and every text, the greedy singleton-bounded
pattern `A{n}` and its lazy variant `A{n}?` return identical search
results. -/
theorem C8_singleton_quant (A : TreNode) (n : Nat) (T : List Nat)
    (hA : isAtomNode A = true) (hn : n ≤ 1024) :
    tre_match [A, TreNode.QUANT n n] T = tre_match [A, TreNode.LQUANT n n] T := by
  rw [tre_match_unanchored _ (isBeginHead_atom_cons A _ hA),
      tre_match_unanchored _ (isBeginHead_atom_cons A _ hA)]
  exact scanLoop_congr _ _ (fun u => matchpattern_singleton_quant A n u) T 0

/-- Witness for C8 at `a{2}` versus `a{2}?` on `"aaa"`. -/
theorem C8_singleton_quant_witness :
    tre_match [TreNode.CHAR 97, TreNode.QUANT 2 2] [97, 97, 97] =
      tre_match [TreNode.CHAR 97, TreNode.LQUANT 2 2] [97, 97, 97] :=
  C8_singleton_quant (TreNode.CHAR 97) 2 [97, 97, 97] rfl (by omega)

/-- C9: in every successfully compiled program, a quantifier-kind
instruction is never the first instruction and always sits immediately
after the atom it modifies (in particular never immediately after another
quantifier-kind instruction). -/
theorem C9_quant_placement (pat : List Nat) (P : List TreNode)
    (hc : tre_compile pat = some P) (j : Nat) (hj : j < P.length)
    (hq : isQuantNode (P.getD j TreNode.BEGIN) = true) :
    j ≠ 0 ∧ isAtomNode (P.getD (j - 1) TreNode.BEGIN) = true ∧
      isQuantNode (P.getD (j - 1) TreNode.BEGIN) = false := by
  have hqp : quantPlaced false P = true := by
    unfold tre_compile at hc
    split at hc
    · exact Option.noConfusion hc
    · exact (compileLoop_spec _ _ _ _ _ _ hc).1
  obtain ⟨h0, hprev⟩ := quantPlaced_get P false hqp j hj hq
  cases j with
  | zero => exact absurd (h0 rfl) (by simp)
  | succ j2 =>
    have ha := hprev j2 rfl
    exact ⟨by omega, by simpa using ha, isAtomNode_not_quant _ ha⟩

/-- Witness for C9 at the program compiled from `"a*"`. -/
theorem C9_quant_placement_witness :
    (1 : Nat) ≠ 0 ∧
      isAtomNode ([TreNode.CHAR 97, TreNode.STAR].getD 0 TreNode.BEGIN) = true ∧
      isQuantNode ([TreNode.CHAR 97, TreNode.STAR].getD 0 TreNode.BEGIN) = false :=
  C9_quant_placement [97, 42] [TreNode.CHAR 97, TreNode.STAR] (by decide) 1
    (by decide) (by decide)

/-- C10: at the public interface, compile fails on a missing (NULL)
pattern, a missing output structure, or an empty pattern string; and
match returns the no-match result on a missing compiled pattern or
missing text. -/
theorem C10_null_inputs :
    (∀ b : Bool, tre_compileC none b = none) ∧
    (∀ p : Option (List Nat), tre_compileC p false = none) ∧
    tre_compileC (some []) true = none ∧
    (∀ t : Option (List Nat), tre_matchC none t = none) ∧
    (∀ P : Option (List TreNode), tre_matchC P none = none) := by
  refine ⟨fun b => by cases b <;> rfl, fun p => ?_, by decide, fun t => by cases t <;> rfl,
    fun P => by cases P <;> rfl⟩
  cases p <;> rfl

end TinyRegex
